import Mathlib

/-!
Verification of the parallel Bloom filter implementation (`src/parallel.c`)
against its natural-language specification.

The C program is embedded shallowly:

* C `unsigned int` arithmetic is `Nat` arithmetic reduced modulo `2 ^ 32`
  (`W` below) wherever the C code can wrap; logical shifts become
  multiplication / division by powers of two.
* A string is a `List Nat` of character codes; a C `int` array is a
  `List Nat`.
* The OpenMP parallel loops write each cell with the single constant `1`,
  so any sequentially consistent interleaving of the parallel writes is a
  permutation of the write sequence; parallel execution is modelled as
  folding an arbitrary permutation of the (element, salt) cross-product.
* The `double` computations of `main` (sizing and hash-count formulas) are
  modelled with real arithmetic, with `Int.ceil` / `Int.floor` for C's
  `ceil` and the truncating `double`-to-`int` conversion of nonnegative
  values.
-/

namespace Bloom

/-- The modulus of C `unsigned int` arithmetic: `2 ^ 32`. -/
def W : Nat := 2 ^ 32

/-- One iteration of the character loop of `APHashWithSalt`
(`src/parallel.c:28-38`): position `i` odd mixes via
`hash ^= ((hash << 7) ^ str[i] ^ (hash >> 3))`, position `i` even via
`hash ^= (~((hash << 11) ^ str[i] ^ (hash >> 5)))`, all on wrapping
32-bit unsigned integers (the character is converted to `unsigned int`,
i.e. taken modulo `2 ^ 32`). -/
def hashStep (hash c i : Nat) : Nat :=
  if i % 2 = 1 then
    hash ^^^ (((hash * 2 ^ 7) % W) ^^^ (c % W) ^^^ (hash / 2 ^ 3))
  else
    hash ^^^ ((((hash * 2 ^ 11) % W) ^^^ (c % W) ^^^ (hash / 2 ^ 5)) ^^^ (W - 1))

/-- The character loop of `APHashWithSalt`, iterating `hashStep` with the
position counter starting at `i`. -/
def hashLoop : List Nat → Nat → Nat → Nat
  | [], _, hash => hash
  | c :: rest, i, hash => hashLoop rest (i + 1) (hashStep hash c i)

/-- `APHashWithSalt` (`src/parallel.c:25-42`): the accumulator starts at the
salt (an `unsigned int`, hence `% W`), the loop mixes every character, and
the result is reduced modulo the bit-array size `m`. -/
def APHashWithSalt (str : List Nat) (salt : Nat) (m : Nat) : Nat :=
  hashLoop str 0 (salt % W) % m

/-- The inner loop of `insertWords` (`src/parallel.c:119-125`) for one word:
for every salt `h < k`, set the cell at index `APHashWithSalt w h m` to `1`. -/
def insertWord (arr : List Nat) (m : Nat) (w : List Nat) (k : Nat) : List Nat :=
  (List.range k).foldl (fun a h => a.set (APHashWithSalt w h m) 1) arr

/-- `insertWords` (`src/parallel.c:115-127`): insert every word of the list,
setting each of its `k` hashed cells to `1`. -/
def insertWords (ws : List (List Nat)) (k : Nat) (arr : List Nat) (m : Nat) :
    List Nat :=
  ws.foldl (fun a w => insertWord a m w k) arr

/-- `lookUp` (`src/parallel.c:156-165`): the conjunction, over every salt
`h < k`, of the truthiness test `bitArray[index]` at
`index = APHashWithSalt word h m` (C treats any nonzero `int` as true). -/
def lookUp (word : List Nat) (k : Nat) (arr : List Nat) (m : Nat) : Bool :=
  (List.range k).all fun h => arr.getD (APHashWithSalt word h m) 0 != 0

/-- The (element, salt) cross-product traversed by the collapsed parallel
loops of `insertWords`, in program order. -/
def crossPairs (ws : List (List Nat)) (k : Nat) : List (List Nat × Nat) :=
  ws.flatMap fun w => (List.range k).map fun h => (w, h)

/-- Folding an arbitrary sequence of the single-cell writes
`bitArray[APHashWithSalt w h m] = 1` (`src/parallel.c:124`) over the bit
array: one sequentially consistent interleaving of the parallel writes. -/
def insertPairs (pairs : List (List Nat × Nat)) (arr : List Nat) (m : Nat) :
    List Nat :=
  pairs.foldl (fun a p => a.set (APHashWithSalt p.1 p.2 m) 1) arr

example : APHashWithSalt [] 5 7 = 5 % 7 := by decide
example : insertWords [[1]] 1 [0, 0] 2 ≠ [0, 0] := by decide
example : lookUp [1] 1 (insertWords [[1]] 1 [0, 0] 2) 2 = true := by decide
example : lookUp [1] 0 [0] 1 = true := by decide

/-! Basic lemmas about the embedded operations. -/

/-- `hash % m` lands in `[0, m)` whenever `m ≥ 1`. -/
theorem APHashWithSalt_lt (str : List Nat) (salt m : Nat) (hm : 1 ≤ m) :
    APHashWithSalt str salt m < m :=
  Nat.mod_lt _ hm

theorem getD_set (l : List Nat) (i j v : Nat) :
    (l.set i v).getD j 0 = if i = j ∧ i < l.length then v else l.getD j 0 := by
  simp only [List.getD_eq_getElem?_getD, List.getElem?_set]
  by_cases h : i = j
  · subst h
    by_cases hl : i < l.length
    · simp [hl]
    · simp [hl, List.getElem?_eq_none (Nat.le_of_not_lt hl)]
  · simp [h]

theorem insertPairs_cons (p : List Nat × Nat) (rest : List (List Nat × Nat))
    (arr : List Nat) (m : Nat) :
    insertPairs (p :: rest) arr m =
      insertPairs rest (arr.set (APHashWithSalt p.1 p.2 m) 1) m := rfl

theorem insertPairs_length (pairs : List (List Nat × Nat)) (arr : List Nat)
    (m : Nat) : (insertPairs pairs arr m).length = arr.length := by
  induction pairs generalizing arr with
  | nil => rfl
  | cons p rest ih => rw [insertPairs_cons, ih, List.length_set]

/-- Every cell of the array after a sequence of set-to-1 writes is either its
old value or `1`. -/
theorem insertPairs_getD_or (pairs : List (List Nat × Nat)) (arr : List Nat)
    (m j : Nat) :
    (insertPairs pairs arr m).getD j 0 = arr.getD j 0 ∨
      (insertPairs pairs arr m).getD j 0 = 1 := by
  induction pairs generalizing arr with
  | nil => exact Or.inl rfl
  | cons p rest ih =>
    rw [insertPairs_cons]
    rcases ih (arr.set (APHashWithSalt p.1 p.2 m) 1) with h | h
    · rw [h, getD_set]
      by_cases hc : APHashWithSalt p.1 p.2 m = j ∧ APHashWithSalt p.1 p.2 m < arr.length
      · rw [if_pos hc]
        exact Or.inr rfl
      · rw [if_neg hc]
        exact Or.inl rfl
    · exact Or.inr h

/-- A cell holding `1` keeps holding `1` across any further set-to-1 writes. -/
theorem insertPairs_getD_of_one (pairs : List (List Nat × Nat)) (arr : List Nat)
    (m j : Nat) (h : arr.getD j 0 = 1) :
    (insertPairs pairs arr m).getD j 0 = 1 := by
  rcases insertPairs_getD_or pairs arr m j with h' | h'
  · rw [h', h]
  · exact h'

/-- After the writes of `pairs`, the cell targeted by any member pair is `1`. -/
theorem insertPairs_getD_mem (pairs : List (List Nat × Nat)) (arr : List Nat)
    (m : Nat) (p : List Nat × Nat) (hp : p ∈ pairs)
    (hlt : APHashWithSalt p.1 p.2 m < arr.length) :
    (insertPairs pairs arr m).getD (APHashWithSalt p.1 p.2 m) 0 = 1 := by
  induction pairs generalizing arr with
  | nil => cases hp
  | cons q rest ih =>
    rw [insertPairs_cons]
    rcases List.mem_cons.mp hp with rfl | hmem
    · apply insertPairs_getD_of_one
      rw [getD_set]
      simp [hlt]
    · exact ih _ hmem (by rwa [List.length_set])

/-- The sequential program order of `insertWords` is one traversal of the
(element, salt) cross-product. -/
theorem insertWords_eq_insertPairs (ws : List (List Nat)) (k : Nat)
    (arr : List Nat) (m : Nat) :
    insertWords ws k arr m = insertPairs (crossPairs ws k) arr m := by
  induction ws generalizing arr with
  | nil => rfl
  | cons w rest ih =>
    have h1 : insertWords (w :: rest) k arr m =
        insertWords rest k (insertWord arr m w k) m := rfl
    have h2 : crossPairs (w :: rest) k =
        ((List.range k).map fun h => (w, h)) ++ crossPairs rest k := by
      simp [crossPairs]
    have h3 : insertPairs (((List.range k).map fun h => (w, h)) ++
          crossPairs rest k) arr m =
        insertPairs (crossPairs rest k) (insertWord arr m w k) m := by
      simp only [insertPairs, List.foldl_append, List.foldl_map]
      rfl
    rw [h1, ih, h2, h3]

/-- Folding the write sequence is invariant under permutation: set-to-1 writes
commute (two writes to the same cell store the same value). -/
theorem insertPairs_perm (m : Nat) {l₁ l₂ : List (List Nat × Nat)}
    (hp : l₁.Perm l₂) (arr : List Nat) :
    insertPairs l₁ arr m = insertPairs l₂ arr m := by
  apply hp.foldl_eq'
  intro x _ y _ z
  by_cases hxy : APHashWithSalt x.1 x.2 m = APHashWithSalt y.1 y.2 m
  · rw [hxy]
  · exact List.set_comm _ _ _ hxy

/-! Claims about insertion and lookup. -/

/-- C1: with the same `k` and `m` for insertion and lookup and `m ≥ 1`,
looking up any inserted element after `insertWords` returns true: the filter
has no false negatives (for any initial bit-array contents of length `m`). -/
theorem no_false_negatives (ws : List (List Nat)) (k m : Nat) (arr : List Nat)
    (hlen : arr.length = m) (hm : 1 ≤ m) (w : List Nat) (hw : w ∈ ws) :
    lookUp w k (insertWords ws k arr m) m = true := by
  simp only [lookUp, List.all_eq_true, List.mem_range]
  intro h hh
  have hmem : (w, h) ∈ crossPairs ws k := by
    simp only [crossPairs, List.mem_flatMap, List.mem_map, List.mem_range]
    exact ⟨w, hw, h, hh, rfl⟩
  rw [insertWords_eq_insertPairs]
  have h1 : (insertPairs (crossPairs ws k) arr m).getD (APHashWithSalt w h m) 0
      = 1 :=
    insertPairs_getD_mem _ _ _ _ hmem
      (by rw [hlen]; exact APHashWithSalt_lt _ _ _ hm)
  rw [h1]
  rfl

theorem no_false_negatives_witness :
    lookUp [1] 1 (insertWords [[1]] 1 [0] 1) 1 = true :=
  no_false_negatives [[1]] 1 1 [0] rfl (by decide) [1] (by decide)

/-- C3: `lookUp` returns true iff for every salt `h < k` the bit at index
`APHashWithSalt word h m` is set (nonzero, C truthiness); for `k = 0` it
returns true on every element. -/
theorem lookUp_iff_all_bits (word : List Nat) (k : Nat) (arr : List Nat)
    (m : Nat) :
    (lookUp word k arr m = true ↔
      ∀ h, h < k → arr.getD (APHashWithSalt word h m) 0 ≠ 0) ∧
    lookUp word 0 arr m = true := by
  refine ⟨?_, rfl⟩
  simp [lookUp, List.all_eq_true, List.mem_range]

/-- C5: the final bit array of insertion is identical under every reordering
(permutation) of the (element, salt) write cross-product; sequentially
consistent interleavings of any number of parallel workers execute some such
permutation, and one worker executes the program order itself. -/
theorem insert_order_invariant (ws : List (List Nat)) (k m : Nat)
    (arr : List Nat) (pairs : List (List Nat × Nat))
    (hp : pairs.Perm (crossPairs ws k)) :
    insertPairs pairs arr m = insertWords ws k arr m := by
  rw [insertWords_eq_insertPairs]
  exact insertPairs_perm m hp arr

theorem insert_order_invariant_witness :
    insertPairs [([2], 0), ([1], 0)] [0, 0, 0] 3 =
      insertWords [[1], [2]] 1 [0, 0, 0] 3 :=
  insert_order_invariant [[1], [2]] 1 3 [0, 0, 0] [([2], 0), ([1], 0)]
    (by decide)

/-- C6: insertion is monotone: an element looked up as true keeps looking up
as true after further insertions, and every cell either keeps its value or
becomes `1` (never `1 → 0`). -/
theorem insert_monotone (ws : List (List Nat)) (k m : Nat) (arr : List Nat)
    (e : List Nat) (he : lookUp e k arr m = true) :
    lookUp e k (insertWords ws k arr m) m = true ∧
    ∀ j, (insertWords ws k arr m).getD j 0 = arr.getD j 0 ∨
      (insertWords ws k arr m).getD j 0 = 1 := by
  have hcell : ∀ j, (insertWords ws k arr m).getD j 0 = arr.getD j 0 ∨
      (insertWords ws k arr m).getD j 0 = 1 := by
    intro j
    rw [insertWords_eq_insertPairs]
    exact insertPairs_getD_or _ _ _ _
  refine ⟨?_, hcell⟩
  simp only [lookUp, List.all_eq_true] at he ⊢
  intro h hh
  have hb := he h hh
  rcases hcell (APHashWithSalt e h m) with hc | hc
  · rw [hc]
    exact hb
  · rw [hc]
    rfl

theorem insert_monotone_witness :
    lookUp [1] 1 (insertWords [[2]] 1 [1] 1) 1 = true ∧
    ((insertWords [[2]] 1 [1] 1).getD 0 0 = ([1] : List Nat).getD 0 0 ∨
      (insertWords [[2]] 1 [1] 1).getD 0 0 = 1) :=
  ⟨(insert_monotone [[2]] 1 1 [1] [1] (by decide)).1,
   (insert_monotone [[2]] 1 1 [1] [1] (by decide)).2 0⟩

/-- C10: with `m ≥ 1`, every index read or written by `insertWords` and
`lookUp` is a hash reduced modulo `m` and so lies in `[0, m)`; `insertWords`
preserves the array length and only ever changes a cell by writing `1`. -/
theorem access_in_bounds (m : Nat) (hm : 1 ≤ m) (ws : List (List Nat))
    (k : Nat) (arr : List Nat) (hlen : arr.length = m) (w : List Nat)
    (h j : Nat) :
    APHashWithSalt w h m < m ∧
    (insertWords ws k arr m).length = m ∧
    ((insertWords ws k arr m).getD j 0 ≠ arr.getD j 0 →
      (insertWords ws k arr m).getD j 0 = 1) := by
  refine ⟨APHashWithSalt_lt _ _ _ hm, ?_, ?_⟩
  · rw [insertWords_eq_insertPairs, insertPairs_length, hlen]
  · intro hne
    have hor := insertPairs_getD_or (crossPairs ws k) arr m j
    rw [← insertWords_eq_insertPairs] at hor
    rcases hor with hc | hc
    · exact absurd hc hne
    · exact hc

/-! The hash contract (C7). -/

theorem xor_lt_W {a b : Nat} (h1 : a < W) (h2 : b < W) : a ^^^ b < W := by
  unfold W at *
  exact Nat.xor_lt_two_pow h1 h2

/-- Each loop iteration keeps the accumulator inside the 32-bit word range:
the wrapping fixed-width invariant of the C `unsigned int` arithmetic. -/
theorem hashStep_lt (acc c i : Nat) (ha : acc < W) : hashStep acc c i < W := by
  have hW : 0 < W := by decide
  have h1 : (acc * 2 ^ 7) % W < W := Nat.mod_lt _ hW
  have h2 : (acc * 2 ^ 11) % W < W := Nat.mod_lt _ hW
  have h3 : c % W < W := Nat.mod_lt _ hW
  have h4 : acc / 2 ^ 3 < W := Nat.lt_of_le_of_lt (Nat.div_le_self _ _) ha
  have h5 : acc / 2 ^ 5 < W := Nat.lt_of_le_of_lt (Nat.div_le_self _ _) ha
  have h6 : W - 1 < W := Nat.sub_lt hW (by decide)
  unfold hashStep
  split
  · exact xor_lt_W ha (xor_lt_W (xor_lt_W h1 h3) h4)
  · exact xor_lt_W ha (xor_lt_W (xor_lt_W (xor_lt_W h2 h3) h5) h6)

/-- The counter-based loop is the fold of `hashStep` over the characters
paired with their positions. -/
theorem hashLoop_eq_foldl (str : List Nat) (i acc : Nat) :
    hashLoop str i acc =
      (List.enumFrom i str).foldl (fun a p => hashStep a p.2 p.1) acc := by
  induction str generalizing i acc with
  | nil => rfl
  | cons c rest ih =>
    simp only [hashLoop, List.enumFrom, List.foldl_cons]
    exact ih _ _

/-- C7: for every string, salt and positive modulus, the hash accumulator
starts at the salt (reduced to a 32-bit word), folds the stated odd/even
XOR-shift mixing step over the characters by position, stays a 32-bit word
throughout (wrapping unsigned arithmetic), and the returned value, the
accumulator modulo the modulus, lies in `[0, m)`. -/
theorem APHashWithSalt_contract (str : List Nat) (salt m acc c i : Nat)
    (hm : 1 ≤ m) :
    APHashWithSalt str salt m < m ∧
    APHashWithSalt str salt m =
      (str.enum.foldl (fun a p => hashStep a p.2 p.1) (salt % W)) % m ∧
    (i % 2 = 1 → hashStep acc c i =
      acc ^^^ (((acc * 2 ^ 7) % W) ^^^ (c % W) ^^^ (acc / 2 ^ 3))) ∧
    (i % 2 = 0 → hashStep acc c i =
      acc ^^^ ((((acc * 2 ^ 11) % W) ^^^ (c % W) ^^^ (acc / 2 ^ 5)) ^^^
        (W - 1))) ∧
    (acc < W → hashStep acc c i < W) := by
  refine ⟨APHashWithSalt_lt _ _ _ hm, ?_, ?_, ?_, fun ha => hashStep_lt acc c i ha⟩
  · unfold APHashWithSalt
    rw [hashLoop_eq_foldl]
    rfl
  · intro hi
    unfold hashStep
    rw [if_pos hi]
  · intro hi
    unfold hashStep
    rw [if_neg (by omega)]

theorem APHashWithSalt_contract_witness :
    APHashWithSalt [65, 66] 7 5 < 5 ∧
    APHashWithSalt [65, 66] 7 5 =
      (([65, 66] : List Nat).enum.foldl (fun a p => hashStep a p.2 p.1)
        (7 % W)) % 5 ∧
    ((1 : Nat) % 2 = 1 → hashStep 3 65 1 =
      3 ^^^ (((3 * 2 ^ 7) % W) ^^^ (65 % W) ^^^ (3 / 2 ^ 3))) ∧
    ((1 : Nat) % 2 = 0 → hashStep 3 65 1 =
      3 ^^^ ((((3 * 2 ^ 11) % W) ^^^ (65 % W) ^^^ (3 / 2 ^ 5)) ^^^
        (W - 1))) ∧
    (3 < W → hashStep 3 65 1 < W) :=
  APHashWithSalt_contract [65, 66] 7 5 3 65 1 (by decide)

/-! The bit-array allocation (C2) and the hash-count division guard (C9). -/

/-- The bit-array construction of `main` (`src/parallel.c:333`):
`bitArray = (int *)malloc(m*sizeof(int))` allocates `m` cells whose initial
contents are whatever values the allocator hands back — C `malloc` does not
clear memory.  The indeterminate heap contents are modelled by the
parameter `mem`. -/
def mallocBitArray (m : Nat) (mem : Nat → Nat) : List Nat :=
  (List.range m).map mem

/-- C2 (refuted by the code): the freshly allocated bit array need not be
all zeros.  With heap contents `mem = fun _ => 1` and `m = 1`, the single
cell of the just-constructed array holds `1`, not `0`: `main` allocates the
bit array with `malloc` and never zeroes it before `insertWords` runs. -/
theorem bitArray_not_zeroed :
    (mallocBitArray 1 fun _ => 1).length = 1 ∧
    (mallocBitArray 1 fun _ => 1).getD 0 0 = 1 := by
  constructor
  · rfl
  · rfl

/-- The hash-count assignment of `main` (`src/parallel.c:329-331`):
`k = (m/numToInsert) * log(2)` after `m = calculateOptimalArraySize(n)`.
The C integer division `m/numToInsert` is evaluated with no guard on
`numToInsert`; when it is `0` the division is undefined behavior (a crash
on mainstream targets), modelled as `none`.  Otherwise the quotient is
multiplied by `log(2)` and truncated to `int` (the floor, as the value is
nonnegative). -/
noncomputable def kAssignment (m n : Nat) : Option ℤ :=
  if n = 0 then none
  else some ⌊((m / n : Nat) : ℝ) * Real.log 2⌋

/-- C9 (refuted by the code): with `n = 0` expected elements the hash-count
computation of `main` performs an unguarded integer division by zero; the
degenerate configuration is not handled. -/
theorem k_division_by_zero (m : Nat) : kAssignment m 0 = none := rfl

theorem access_in_bounds_witness :
    APHashWithSalt [3] 0 2 < 2 ∧ (insertWords [[1]] 1 [0, 0] 2).length = 2 ∧
    ((insertWords [[1]] 1 [0, 0] 2).getD 0 0 ≠ ([0, 0] : List Nat).getD 0 0 →
      (insertWords [[1]] 1 [0, 0] 2).getD 0 0 = 1) :=
  access_in_bounds 2 (by decide) [[1]] 1 [0, 0] rfl [3] 0 0

/-! The evaluation harness (C8). -/

/-- The four counters of `testBloomWithQueries` (`src/parallel.c:241-275`). -/
structure EvalCounts where
  fPositive : Nat
  fNegative : Nat
  totalPositive : Nat
  totalNegative : Nat
  deriving DecidableEq

/-- The loop body of `testBloomWithQueries` for one query record
(`src/parallel.c:250-271`): a record is a (word, groundTruthBit) pair;
`expectedBit == 1` bumps `totalPositive` and, when the lookup answers
false, `fNegative`; `expectedBit == 0` bumps `totalNegative` and, when the
lookup answers true, `fPositive`; any other bit leaves the counters
unchanged. -/
def testStep (k : Nat) (arr : List Nat) (m : Nat) (c : EvalCounts)
    (q : List Nat × Nat) : EvalCounts :=
  if q.2 = 1 then
    if lookUp q.1 k arr m then
      { c with totalPositive := c.totalPositive + 1 }
    else
      { c with totalPositive := c.totalPositive + 1,
               fNegative := c.fNegative + 1 }
  else if q.2 = 0 then
    if lookUp q.1 k arr m then
      { c with totalNegative := c.totalNegative + 1,
               fPositive := c.fPositive + 1 }
    else
      { c with totalNegative := c.totalNegative + 1 }
  else c

/-- `testBloomWithQueries`: the counters accumulated over the query list
(the OpenMP `reduction(+:...)` clause sums thread-local counters; the
sequential fold realizes one evaluation order). -/
def testBloomWithQueries (queries : List (List Nat × Nat)) (k : Nat)
    (arr : List Nat) (m : Nat) : EvalCounts :=
  queries.foldl (testStep k arr m) ⟨0, 0, 0, 0⟩

/-- The first percentage printed by `testBloomWithQueries`
(`src/parallel.c:273`): `(double)fNegative / totalPositive * 100`. -/
def falseNegativeRate (c : EvalCounts) : ℚ :=
  (c.fNegative : ℚ) / (c.totalPositive : ℚ) * 100

/-- The second percentage printed by `testBloomWithQueries`
(`src/parallel.c:274`): `(double)fPositive / totalNegative * 100`. -/
def falsePositiveRate (c : EvalCounts) : ℚ :=
  (c.fPositive : ℚ) / (c.totalNegative : ℚ) * 100

theorem testBloom_foldl (k : Nat) (arr : List Nat) (m : Nat)
    (qs : List (List Nat × Nat)) (c : EvalCounts) :
    qs.foldl (testStep k arr m) c =
      ⟨c.fPositive + (qs.filter fun q => q.2 == 0 && lookUp q.1 k arr m).length,
       c.fNegative + (qs.filter fun q => q.2 == 1 && !lookUp q.1 k arr m).length,
       c.totalPositive + (qs.filter fun q => q.2 == 1).length,
       c.totalNegative + (qs.filter fun q => q.2 == 0).length⟩ := by
  induction qs generalizing c with
  | nil => simp
  | cons q rest ih =>
    rw [List.foldl_cons, ih]
    by_cases h1 : q.2 = 1
    · by_cases h2 : lookUp q.1 k arr m = true <;>
        simp [testStep, List.filter_cons, h1, h2, EvalCounts.mk.injEq] <;>
        omega
    · by_cases h0 : q.2 = 0
      · by_cases h2 : lookUp q.1 k arr m = true <;>
          simp [testStep, List.filter_cons, h1, h0, h2, EvalCounts.mk.injEq] <;>
          omega
      · simp [testStep, List.filter_cons, h1, h0, EvalCounts.mk.injEq]

/-- C8: the evaluator counts a false negative exactly on the records with
ground-truth bit `1` whose lookup answers false, a false positive exactly on
the records with bit `0` whose lookup answers true, the totals count the
records with bit `1` resp. `0`, the counts are the same for any processing
order (any permutation of the query list), and the reported rates are
`fNegative / totalPositive * 100` and `fPositive / totalNegative * 100`. -/
theorem evaluator_spec (queries qs' : List (List Nat × Nat)) (k : Nat)
    (arr : List Nat) (m : Nat) (hperm : qs'.Perm queries) :
    (testBloomWithQueries queries k arr m).fNegative =
      (queries.filter fun q => q.2 == 1 && !lookUp q.1 k arr m).length ∧
    (testBloomWithQueries queries k arr m).fPositive =
      (queries.filter fun q => q.2 == 0 && lookUp q.1 k arr m).length ∧
    (testBloomWithQueries queries k arr m).totalPositive =
      (queries.filter fun q => q.2 == 1).length ∧
    (testBloomWithQueries queries k arr m).totalNegative =
      (queries.filter fun q => q.2 == 0).length ∧
    testBloomWithQueries qs' k arr m = testBloomWithQueries queries k arr m ∧
    falseNegativeRate (testBloomWithQueries queries k arr m) =
      ((testBloomWithQueries queries k arr m).fNegative : ℚ) /
        ((testBloomWithQueries queries k arr m).totalPositive : ℚ) * 100 ∧
    falsePositiveRate (testBloomWithQueries queries k arr m) =
      ((testBloomWithQueries queries k arr m).fPositive : ℚ) /
        ((testBloomWithQueries queries k arr m).totalNegative : ℚ) * 100 := by
  have hchar : ∀ qs : List (List Nat × Nat), testBloomWithQueries qs k arr m =
      ⟨(qs.filter fun q => q.2 == 0 && lookUp q.1 k arr m).length,
       (qs.filter fun q => q.2 == 1 && !lookUp q.1 k arr m).length,
       (qs.filter fun q => q.2 == 1).length,
       (qs.filter fun q => q.2 == 0).length⟩ := by
    intro qs
    rw [testBloomWithQueries, testBloom_foldl]
    simp
  refine ⟨?_, ?_, ?_, ?_, ?_, rfl, rfl⟩
  · rw [hchar]
  · rw [hchar]
  · rw [hchar]
  · rw [hchar]
  · rw [hchar qs', hchar queries]
    simp only [EvalCounts.mk.injEq]
    exact ⟨(hperm.filter _).length_eq, (hperm.filter _).length_eq,
      (hperm.filter _).length_eq, (hperm.filter _).length_eq⟩

theorem evaluator_spec_witness :
    (testBloomWithQueries [([1], 1), ([2], 0)] 0 [] 1).fNegative =
      (([([1], 1), ([2], 0)] : List (List Nat × Nat)).filter
        fun q => q.2 == 1 && !lookUp q.1 0 [] 1).length ∧
    (testBloomWithQueries [([1], 1), ([2], 0)] 0 [] 1).fPositive =
      (([([1], 1), ([2], 0)] : List (List Nat × Nat)).filter
        fun q => q.2 == 0 && lookUp q.1 0 [] 1).length ∧
    (testBloomWithQueries [([1], 1), ([2], 0)] 0 [] 1).totalPositive =
      (([([1], 1), ([2], 0)] : List (List Nat × Nat)).filter
        fun q => q.2 == 1).length ∧
    (testBloomWithQueries [([1], 1), ([2], 0)] 0 [] 1).totalNegative =
      (([([1], 1), ([2], 0)] : List (List Nat × Nat)).filter
        fun q => q.2 == 0).length ∧
    testBloomWithQueries [([2], 0), ([1], 1)] 0 [] 1 =
      testBloomWithQueries [([1], 1), ([2], 0)] 0 [] 1 ∧
    falseNegativeRate (testBloomWithQueries [([1], 1), ([2], 0)] 0 [] 1) =
      ((testBloomWithQueries [([1], 1), ([2], 0)] 0 [] 1).fNegative : ℚ) /
        ((testBloomWithQueries [([1], 1), ([2], 0)] 0 [] 1).totalPositive : ℚ)
          * 100 ∧
    falsePositiveRate (testBloomWithQueries [([1], 1), ([2], 0)] 0 [] 1) =
      ((testBloomWithQueries [([1], 1), ([2], 0)] 0 [] 1).fPositive : ℚ) /
        ((testBloomWithQueries [([1], 1), ([2], 0)] 0 [] 1).totalNegative : ℚ)
          * 100 :=
  evaluator_spec [([1], 1), ([2], 0)] [([2], 0), ([1], 1)] 0 [] 1 (by decide)

/-! Sizing and hash count (C4).  The `double` formulas of `main` are
modelled with exact real arithmetic. -/

/-- The exact value of the sizing ratio `log(0.01) / log(1/2^(ln 2))`
appearing in `calculateOptimalArraySize`, rewritten as
`ln 100 / (ln 2)^2`. -/
noncomputable def cRatio : ℝ := Real.log 100 / Real.log 2 ^ 2

/-- `calculateOptimalArraySize` (`src/parallel.c:139-143`):
`m = ceil((n * log(MAX_FP)) / log(1/pow(2, log(2))))` with `MAX_FP = 0.01`. -/
noncomputable def calculateOptimalArraySize (n : ℕ) : ℤ :=
  ⌈((n : ℝ) * Real.log 0.01) / Real.log (1 / (2 : ℝ) ^ Real.log 2)⌉

/-- The hash count computed by `main` (`src/parallel.c:331`):
`k = (m/numToInsert) * log(2)` — `m/numToInsert` is a C **integer**
division (modelled by `Nat` division), the product is a `double`, and the
assignment to the `int` `k` truncates (the floor, as the value is
nonnegative). -/
noncomputable def codeHashCount (n : ℕ) : ℤ :=
  ⌊(((calculateOptimalArraySize n).toNat / n : ℕ) : ℝ) * Real.log 2⌋

/-- Modelled from the spec: `k = floor((m / n) * ln 2)` with `m / n` the
**real** (not integer-truncated) quotient, for the computed bit-array size
`m`; the comparison definition for the refinement claim about the
hash-function count. -/
noncomputable def specHashCount (n : ℕ) : ℤ :=
  ⌊(((calculateOptimalArraySize n).toNat : ℝ) / (n : ℝ)) * Real.log 2⌋

theorem log_hundred_eq : Real.log 100 = 2 * Real.log 10 := by
  rw [show (100 : ℝ) = 10 ^ (2 : ℕ) by norm_num, Real.log_pow]
  norm_num

/-- Rational bounds on `ln 10` in terms of `ln 2`, from `2^93 < 10^28`
and `10^40 < 2^133`. -/
theorem log_ten_bounds :
    (93 / 28 : ℝ) * Real.log 2 < Real.log 10 ∧
    Real.log 10 < (133 / 40 : ℝ) * Real.log 2 := by
  constructor
  · have hpow : (2 : ℝ) ^ (93 : ℕ) < (10 : ℝ) ^ (28 : ℕ) := by norm_num
    have h := Real.log_lt_log (by positivity) hpow
    rw [Real.log_pow, Real.log_pow] at h
    push_cast at h
    linarith
  · have hpow : (10 : ℝ) ^ (40 : ℕ) < (2 : ℝ) ^ (133 : ℕ) := by norm_num
    have h := Real.log_lt_log (by positivity) hpow
    rw [Real.log_pow, Real.log_pow] at h
    push_cast at h
    linarith

theorem cRatio_gt : (9.5835 : ℝ) < cRatio := by
  have hL1 := Real.log_two_gt_d9
  have hL2 := Real.log_two_lt_d9
  have hLpos : (0 : ℝ) < Real.log 2 := by linarith
  obtain ⟨hlo, _⟩ := log_ten_bounds
  unfold cRatio
  rw [log_hundred_eq, lt_div_iff₀ (by positivity)]
  have key : (9.5835 : ℝ) * Real.log 2 < 93 / 14 := by linarith
  have h2 : 9.5835 * Real.log 2 * Real.log 2 < (93 / 14) * Real.log 2 :=
    mul_lt_mul_of_pos_right key hLpos
  nlinarith [h2, hlo]

theorem cRatio_lt : cRatio < 9.59393 := by
  have hL1 := Real.log_two_gt_d9
  have hL2 := Real.log_two_lt_d9
  have hLpos : (0 : ℝ) < Real.log 2 := by linarith
  obtain ⟨_, hhi⟩ := log_ten_bounds
  unfold cRatio
  rw [log_hundred_eq, div_lt_iff₀ (by positivity)]
  have key : (133 / 20 : ℝ) < 9.59393 * Real.log 2 := by linarith
  have h2 : (133 / 20) * Real.log 2 < 9.59393 * Real.log 2 * Real.log 2 :=
    mul_lt_mul_of_pos_right key hLpos
  nlinarith [h2, hhi]

/-- The C sizing expression equals `n * cRatio` before taking the ceiling. -/
theorem sizing_quotient_eq (n : ℕ) :
    ((n : ℝ) * Real.log 0.01) / Real.log (1 / (2 : ℝ) ^ Real.log 2) =
      (n : ℝ) * cRatio := by
  unfold cRatio
  have h1 : Real.log 0.01 = -Real.log 100 := by
    rw [show (0.01 : ℝ) = 100⁻¹ by norm_num, Real.log_inv]
  have h2 : Real.log (1 / (2 : ℝ) ^ Real.log 2) = -(Real.log 2 ^ 2) := by
    rw [one_div, Real.log_inv, Real.log_rpow (by norm_num : (0 : ℝ) < 2)]
    ring
  rw [h1, h2, mul_neg, neg_div, div_neg, neg_neg, mul_div_assoc]

theorem calcSize_eq (n : ℕ) :
    calculateOptimalArraySize n = ⌈(n : ℝ) * cRatio⌉ := by
  unfold calculateOptimalArraySize
  rw [sizing_quotient_eq]

theorem calcSize_pos (n : ℕ) (hn : 1 ≤ n) : 0 < calculateOptimalArraySize n := by
  rw [calcSize_eq]
  have hnR : (1 : ℝ) ≤ (n : ℝ) := by exact_mod_cast hn
  have h1 : (0 : ℝ) < (n : ℝ) * cRatio := by nlinarith [cRatio_gt]
  exact Int.ceil_pos.mpr h1

/-- The computed size, cast to the reals, lies in `[n*cRatio, n*cRatio+1)`. -/
theorem mReal_bounds (n : ℕ) (hn : 1 ≤ n) :
    (n : ℝ) * cRatio ≤ ((calculateOptimalArraySize n).toNat : ℝ) ∧
    ((calculateOptimalArraySize n).toNat : ℝ) < (n : ℝ) * cRatio + 1 := by
  have hpos := calcSize_pos n hn
  have hcast : (((calculateOptimalArraySize n).toNat : ℕ) : ℝ) =
      ((calculateOptimalArraySize n : ℤ) : ℝ) := by
    exact_mod_cast congrArg (fun z : ℤ => (z : ℝ))
      (Int.toNat_of_nonneg hpos.le)
  rw [hcast, calcSize_eq]
  exact ⟨Int.le_ceil _, Int.ceil_lt_add_one _⟩

/-- Any real in `[9, 10.094)` multiplied by `ln 2` has floor `6`. -/
theorem floor_mul_log_two_eq_six {x : ℝ} (hlo : 9 ≤ x) (hhi : x < 10.094) :
    ⌊x * Real.log 2⌋ = 6 := by
  have hL1 := Real.log_two_gt_d9
  have hL2 := Real.log_two_lt_d9
  have hLpos : (0 : ℝ) < Real.log 2 := by linarith
  rw [Int.floor_eq_iff]
  constructor
  · have t1 : (9 : ℝ) * Real.log 2 ≤ x * Real.log 2 :=
      mul_le_mul_of_nonneg_right hlo hLpos.le
    push_cast
    nlinarith
  · have t1 : x * Real.log 2 < 10.094 * Real.log 2 :=
      mul_lt_mul_of_pos_right hhi hLpos
    push_cast
    nlinarith

/-- C4: for every expected element count `n ≥ 1` and the bit-array size `m`
computed by `calculateOptimalArraySize`, the hash count computed by `main`
(with C integer division `m/n`) equals `floor((m / n) * ln 2)` with `m / n`
the real quotient — both are `6` for the fixed 1% false-positive target. -/
theorem hashCount_eq_spec (n : ℕ) (hn : 1 ≤ n) :
    codeHashCount n = specHashCount n := by
  have hc1 := cRatio_gt
  have hc2 := cRatio_lt
  have hnpos : 0 < n := hn
  have hnR : (1 : ℝ) ≤ (n : ℝ) := by exact_mod_cast hn
  have hnRpos : (0 : ℝ) < (n : ℝ) := by linarith
  obtain ⟨hM1, hM2⟩ := mReal_bounds n hn
  set M : ℕ := (calculateOptimalArraySize n).toNat with hMdef
  have h9n : 9 * n ≤ M := by
    have hr : (9 : ℝ) * (n : ℝ) ≤ (M : ℝ) := by nlinarith
    exact_mod_cast hr
  have h11n : M < 11 * n := by
    have hr : (M : ℝ) < 11 * (n : ℝ) := by nlinarith
    exact_mod_cast hr
  have hQ9 : 9 ≤ M / n := (Nat.le_div_iff_mul_le hnpos).mpr h9n
  have hQ11 : M / n < 11 := (Nat.div_lt_iff_lt_mul hnpos).mpr h11n
  have hcode : codeHashCount n = 6 := by
    unfold codeHashCount
    rw [← hMdef]
    apply floor_mul_log_two_eq_six
    · exact_mod_cast hQ9
    · have : ((M / n : ℕ) : ℝ) ≤ 10 := by
        have h10 : M / n ≤ 10 := by omega
        exact_mod_cast h10
      linarith
  have hspec : specHashCount n = 6 := by
    unfold specHashCount
    rw [← hMdef]
    apply floor_mul_log_two_eq_six
    · rw [le_div_iff₀ hnRpos]
      nlinarith
    · rw [div_lt_iff₀ hnRpos]
      rcases eq_or_lt_of_le hn with h1 | h2
      · have hn1 : n = 1 := h1.symm
        subst hn1
        have hM10 : calculateOptimalArraySize 1 = 10 := by
          rw [calcSize_eq]
          rw [Int.ceil_eq_iff]
          push_cast
          constructor <;> nlinarith
        have : M = 10 := by rw [hMdef, hM10]; rfl
        rw [this]
        norm_num
      · have hn2 : (2 : ℝ) ≤ (n : ℝ) := by exact_mod_cast h2
        have hprod : (n : ℝ) * cRatio < (n : ℝ) * 9.59393 :=
          (mul_lt_mul_left hnRpos).mpr hc2
        nlinarith
  rw [hcode, hspec]

theorem hashCount_eq_spec_witness :
    codeHashCount 1000 = specHashCount 1000 :=
  hashCount_eq_spec 1000 (by decide)

end Bloom
